import Mathlib

/-!
Verification of the grammy-json-query plugin (src/mod.ts).

The development shallowly embeds the two components of the plugin:

* the `InlineKeyboard.json` button encoder (static and instance method), and
* the `jsonQuery` middleware that installs a `jsonQuery` getter property
  on the bot context.

The JavaScript builtins `JSON.stringify` / `JSON.parse` used by the source
are modelled by an executable serializer and parser over an inductive JSON
value type.  JSON numbers are modelled as integers (the repository and its
tests use only integer payload values; IEEE floating point is out of scope
of the embedding), and JSON fraction/exponent syntax is therefore not part
of the number model.  Array elements and object members are represented by
the mutually inductive `JsonElems` / `JsonMembers` lists so that all
functions on JSON values are structurally recursive and computable by the
kernel.
-/

namespace GrammyJsonQuery

mutual

/-- The JSON data model (numbers restricted to integers, see module note). -/
inductive JsonValue where
  | null : JsonValue
  | bool (b : Bool) : JsonValue
  | num (n : Int) : JsonValue
  | str (s : String) : JsonValue
  | arr (elems : JsonElems) : JsonValue
  | obj (members : JsonMembers) : JsonValue

/-- A list of JSON array elements. -/
inductive JsonElems where
  | nil : JsonElems
  | cons (v : JsonValue) (vs : JsonElems) : JsonElems

/-- A list of JSON object members, keys in insertion order. -/
inductive JsonMembers where
  | nil : JsonMembers
  | cons (k : String) (v : JsonValue) (ms : JsonMembers) : JsonMembers

end

/-- Build a `JsonElems` from a Lean list. -/
def JsonElems.ofList : List JsonValue → JsonElems
  | [] => .nil
  | v :: vs => .cons v (JsonElems.ofList vs)

/-- Build a `JsonMembers` from a Lean association list. -/
def JsonMembers.ofList : List (String × JsonValue) → JsonMembers
  | [] => .nil
  | (k, v) :: ms => .cons k v (JsonMembers.ofList ms)

/-- A JSON array given as a Lean list. -/
def JsonValue.arrOf (l : List JsonValue) : JsonValue := .arr (JsonElems.ofList l)

/-- A JSON object given as a Lean association list. -/
def JsonValue.objOf (l : List (String × JsonValue)) : JsonValue := .obj (JsonMembers.ofList l)

/-! ### Serialization (model of `JSON.stringify` on JSON-model values) -/

/-- The decimal digit character for `n < 10`. -/
def digitChar (n : Nat) : Char := Char.ofNat (48 + n)

/-- Lowercase hex digit character for `n < 16`. -/
def hexDigitChar (n : Nat) : Char :=
  if n < 10 then Char.ofNat (48 + n) else Char.ofNat (87 + n)

/-- Decimal digits of `n`, most significant first; fueled so that the
function is structurally recursive (any fuel above `n` is enough). -/
def natToCharsAux : Nat → Nat → List Char
  | 0, _ => []
  | fuel + 1, n =>
    if n < 10 then [digitChar n]
    else natToCharsAux fuel (n / 10) ++ [digitChar (n % 10)]

/-- Decimal digits of `n`, most significant first. -/
def natToChars (n : Nat) : List Char := natToCharsAux (n + 1) n

/-- Number of decimal digits of `n`. -/
def numDigits (n : Nat) : Nat :=
  if n < 10 then 1 else numDigits (n / 10) + 1
decreasing_by exact Nat.div_lt_self (by omega) (by omega)

/-- Decimal representation of an integer, as emitted by `JSON.stringify`. -/
def intChars (n : Int) : List Char :=
  if n < 0 then '-' :: natToChars n.natAbs else natToChars n.natAbs

/-- JSON string escaping of one character, as performed by `JSON.stringify`:
short escapes for `"` `\` and the common control characters, `\u00xx` for
the remaining control characters, everything else verbatim. -/
def escChar (c : Char) : List Char :=
  if c = '"' then ['\\', '"']
  else if c = '\\' then ['\\', '\\']
  else if c = '\x08' then ['\\', 'b']
  else if c = '\x0c' then ['\\', 'f']
  else if c = '\n' then ['\\', 'n']
  else if c = '\r' then ['\\', 'r']
  else if c = '\t' then ['\\', 't']
  else if c.toNat < 32 then
    '\\' :: 'u' :: '0' :: '0' :: [hexDigitChar (c.toNat / 16), hexDigitChar (c.toNat % 16)]
  else [c]

/-- JSON string escaping of a character sequence. -/
def escChars : List Char → List Char
  | [] => []
  | c :: cs => escChar c ++ escChars cs

/-- A JSON string literal: quote, escaped content, quote. -/
def quoteChars (cs : List Char) : List Char :=
  '"' :: (escChars cs ++ ['"'])

mutual

/-- Serialization of a JSON value, exactly as `JSON.stringify` renders it:
no whitespace, object keys in insertion order. -/
def serializeV : JsonValue → List Char
  | .null => "null".data
  | .bool true => "true".data
  | .bool false => "false".data
  | .num n => intChars n
  | .str s => quoteChars s.data
  | .arr es => '[' :: (serializeElems es ++ [']'])
  | .obj ms => '\x7b' :: (serializeMembers ms ++ ['\x7d'])

/-- Comma-separated serialization of a list of array elements. -/
def serializeElems : JsonElems → List Char
  | .nil => []
  | .cons v .nil => serializeV v
  | .cons v (.cons w ws) => serializeV v ++ ',' :: serializeElems (.cons w ws)

/-- Comma-separated serialization of a list of object members. -/
def serializeMembers : JsonMembers → List Char
  | .nil => []
  | .cons k v .nil => quoteChars k.data ++ ':' :: serializeV v
  | .cons k v (.cons k2 v2 ms) =>
    (quoteChars k.data ++ ':' :: serializeV v) ++ ',' :: serializeMembers (.cons k2 v2 ms)

end

/-- Model of `JSON.stringify` on a JSON-model value (always a string). -/
def JSONStringifyValue (v : JsonValue) : String := ⟨serializeV v⟩

/-! ### Parsing (model of `JSON.parse`) -/

/-- JSON insignificant whitespace. -/
def isWsChar (c : Char) : Bool :=
  c = ' ' || c = '\t' || c = '\n' || c = '\r'

/-- Skip leading whitespace. -/
def skipWs : List Char → List Char
  | [] => []
  | c :: cs => if isWsChar c then skipWs cs else c :: cs

/-- Value of a decimal digit character. -/
def digitVal? (c : Char) : Option Nat :=
  if '0' ≤ c ∧ c ≤ '9' then some (c.toNat - 48) else none

/-- Value of a hexadecimal digit character. -/
def hexVal? (c : Char) : Option Nat :=
  if '0' ≤ c ∧ c ≤ '9' then some (c.toNat - 48)
  else if 'a' ≤ c ∧ c ≤ 'f' then some (c.toNat - 87)
  else if 'A' ≤ c ∧ c ≤ 'F' then some (c.toNat - 55)
  else none

/-- Translation of a single-character JSON escape. -/
def unescChar? (c : Char) : Option Char :=
  if c = '"' then some '"'
  else if c = '\\' then some '\\'
  else if c = '/' then some '/'
  else if c = 'b' then some '\x08'
  else if c = 'f' then some '\x0c'
  else if c = 'n' then some '\n'
  else if c = 'r' then some '\r'
  else if c = 't' then some '\t'
  else none

/-- Expect a fixed character sequence, returning the remainder. -/
def stripChars : List Char → List Char → Option (List Char)
  | [], cs => some cs
  | p :: ps, c :: cs => if c = p then stripChars ps cs else none
  | _ :: _, [] => none

/-- Combined value of a four-hex-digit escape. -/
def hex4? (h1 h2 h3 h4 : Char) : Option Nat :=
  match hexVal? h1, hexVal? h2, hexVal? h3, hexVal? h4 with
  | some a, some b, some c, some d => some (((a * 16 + b) * 16 + c) * 16 + d)
  | _, _, _, _ => none

/-- Parse the body of a JSON string literal (after the opening quote),
returning the decoded characters and the remainder after the closing
quote.  Fueled; each step consumes at least one input character. -/
def parseStrBody : Nat → List Char → Option (List Char × List Char)
  | 0, _ => none
  | fuel + 1, cs =>
    match cs with
    | [] => none
    | c :: rest =>
      if c = '"' then some ([], rest)
      else if c = '\\' then
        match rest with
        | [] => none
        | e :: rest1 =>
          if e = 'u' then
            match rest1 with
            | h1 :: h2 :: h3 :: h4 :: rest2 =>
              match hex4? h1 h2 h3 h4 with
              | some n =>
                if n < 55296 ∨ 57344 ≤ n then
                  (parseStrBody fuel rest2).map fun (s, r) => (Char.ofNat n :: s, r)
                else none
              | none => none
            | _ => none
          else
            match unescChar? e with
            | some d => (parseStrBody fuel rest1).map fun (s, r) => (d :: s, r)
            | none => none
      else if c.toNat < 32 then none
      else (parseStrBody fuel rest).map fun (s, r) => (c :: s, r)

/-- Greedily consume decimal digits, folding them onto `acc`. -/
def parseDigits (acc : Nat) : List Char → Nat × List Char
  | [] => (acc, [])
  | c :: cs =>
    match digitVal? c with
    | some d => parseDigits (acc * 10 + d) cs
    | none => (acc, c :: cs)

/-- Parse an unsigned JSON integer (JSON forbids leading zeros, so a
leading `0` is the complete number). -/
def parseNumberNat : List Char → Option (Nat × List Char)
  | [] => none
  | c :: cs =>
    match digitVal? c with
    | none => none
    | some 0 => some (0, cs)
    | some _ => some (parseDigits 0 (c :: cs))

/-- Parse a (possibly negative) JSON integer. -/
def parseNumber (cs : List Char) : Option (Int × List Char) :=
  match cs with
  | [] => none
  | c :: cs1 =>
    if c = '-' then (parseNumberNat cs1).map fun (n, r) => (-(n : Int), r)
    else (parseNumberNat (c :: cs1)).map fun (n, r) => ((n : Int), r)

mutual

/-- Parse one JSON value, returning it together with the unconsumed
remainder.  Fueled on the nesting of values. -/
def parseVal : Nat → List Char → Option (JsonValue × List Char)
  | 0, _ => none
  | f + 1, cs =>
    match skipWs cs with
    | [] => none
    | c :: rest =>
      if c = 'n' then (stripChars ['u', 'l', 'l'] rest).map fun r => (.null, r)
      else if c = 't' then (stripChars ['r', 'u', 'e'] rest).map fun r => (.bool true, r)
      else if c = 'f' then (stripChars ['a', 'l', 's', 'e'] rest).map fun r => (.bool false, r)
      else if c = '"' then
        (parseStrBody (rest.length + 1) rest).map fun (s, r) => (.str ⟨s⟩, r)
      else if c = '[' then
        match skipWs rest with
        | [] => none
        | c2 :: r2 =>
          if c2 = ']' then some (.arr .nil, r2)
          else (parseElems f (c2 :: r2)).map fun (vs, r) => (.arr vs, r)
      else if c = '\x7b' then
        match skipWs rest with
        | [] => none
        | c2 :: r2 =>
          if c2 = '\x7d' then some (.obj .nil, r2)
          else (parseMembers f (c2 :: r2)).map fun (ms, r) => (.obj ms, r)
      else (parseNumber (c :: rest)).map fun (n, r) => (.num n, r)

/-- Parse a nonempty comma-separated element list followed by `]`. -/
def parseElems : Nat → List Char → Option (JsonElems × List Char)
  | 0, _ => none
  | f + 1, cs =>
    match parseVal f cs with
    | none => none
    | some (v, rest) =>
      match skipWs rest with
      | [] => none
      | c :: r2 =>
        if c = ',' then (parseElems f r2).map fun (vs, r) => (.cons v vs, r)
        else if c = ']' then some (.cons v .nil, r2)
        else none

/-- Parse a nonempty comma-separated member list followed by `}`. -/
def parseMembers : Nat → List Char → Option (JsonMembers × List Char)
  | 0, _ => none
  | f + 1, cs =>
    match skipWs cs with
    | [] => none
    | c :: r1 =>
      if c = '"' then
        match parseStrBody (r1.length + 1) r1 with
        | none => none
        | some (k, r2) =>
          match skipWs r2 with
          | [] => none
          | c2 :: r3 =>
            if c2 = ':' then
              match parseVal f r3 with
              | none => none
              | some (v, r4) =>
                match skipWs r4 with
                | [] => none
                | c3 :: r5 =>
                  if c3 = ',' then
                    (parseMembers f r5).map fun (ms, r) => (.cons ⟨k⟩ v ms, r)
                  else if c3 = '\x7d' then some (.cons ⟨k⟩ v .nil, r5)
                  else none
            else none
      else none

end

/-- Model of `JSON.parse`: parse a complete JSON text (only whitespace may
trail the value), `none` on any syntax error.  The fuel is generous enough
for every serializable value (proved below). -/
def JSONParse (s : String) : Option JsonValue :=
  match parseVal (2 * s.data.length + 2) s.data with
  | some (v, r) => if skipWs r = [] then some v else none
  | none => none

/-! ### Round-trip: `JSONParse` inverts `JSONStringifyValue`

The proof follows the usual structure for parser/serializer pairs: a
per-construct lemma showing the parser consumes exactly the serialized
form, combined by mutual induction over the value, with the parser fuel
handled by an explicit lower bound (`needV` below). -/

/-- `true` when the input continues with a decimal digit (in which case a
preceding number literal would not stop here). -/
def headDigit : List Char → Bool
  | [] => false
  | c :: _ => (digitVal? c).isSome

theorem digitVal?_digitChar : ∀ d, d < 10 → digitVal? (digitChar d) = some d := by decide

theorem digitChar_not_ws : ∀ d, d < 10 → isWsChar (digitChar d) = false := by decide

theorem digitChar_ne : ∀ d, d < 10 →
    digitChar d ≠ '-' ∧ digitChar d ≠ 'n' ∧ digitChar d ≠ 't' ∧ digitChar d ≠ 'f' ∧
    digitChar d ≠ '"' ∧ digitChar d ≠ '[' ∧ digitChar d ≠ '\x7b' ∧
    digitChar d ≠ ']' ∧ digitChar d ≠ '\x7d' := by decide

theorem hexVal?_hexDigitChar : ∀ d, d < 16 → hexVal? (hexDigitChar d) = some d := by decide

theorem skipWs_cons_of {c : Char} (h : isWsChar c = false) (cs : List Char) :
    skipWs (c :: cs) = c :: cs := by
  simp [skipWs, h]

theorem natToCharsAux_irrel : ∀ n f f' : Nat, n < f → n < f' →
    natToCharsAux f n = natToCharsAux f' n := by
  intro n
  induction n using Nat.strong_induction_on with
  | _ n ih =>
    intro f f' hf hf'
    obtain ⟨g, rfl⟩ := Nat.exists_eq_succ_of_ne_zero (show f ≠ 0 by omega)
    obtain ⟨g', rfl⟩ := Nat.exists_eq_succ_of_ne_zero (show f' ≠ 0 by omega)
    by_cases h10 : n < 10
    · simp [natToCharsAux, h10]
    · have hd : n / 10 < n := Nat.div_lt_self (by omega) (by omega)
      simp only [natToCharsAux, if_neg h10]
      rw [ih (n / 10) hd g g' (by omega) (by omega)]

/-- Unfolding equation for `natToChars` that hides the fuel. -/
theorem natToChars_eq (n : Nat) :
    natToChars n =
      if n < 10 then [digitChar n] else natToChars (n / 10) ++ [digitChar (n % 10)] := by
  show natToCharsAux (n + 1) n = _
  rw [show natToCharsAux (n + 1) n =
      if n < 10 then [digitChar n] else natToCharsAux n (n / 10) ++ [digitChar (n % 10)] from rfl]
  by_cases h10 : n < 10
  · rw [if_pos h10, if_pos h10]
  · rw [if_neg h10, if_neg h10]
    have hlt : n / 10 < n := Nat.div_lt_self (by omega) (by omega)
    rw [natToCharsAux_irrel (n / 10) n (n / 10 + 1) (by omega) (by omega)]
    rfl

theorem natToChars_head (n : Nat) :
    ∃ d t, d < 10 ∧ (1 ≤ n → 1 ≤ d) ∧ natToChars n = digitChar d :: t := by
  induction n using Nat.strong_induction_on with
  | _ n ih =>
    rw [natToChars_eq]
    by_cases h10 : n < 10
    · exact ⟨n, [], h10, fun h => h, by rw [if_pos h10]⟩
    · obtain ⟨d, t, hd, hpos, heq⟩ := ih (n / 10) (Nat.div_lt_self (by omega) (by omega))
      refine ⟨d, t ++ [digitChar (n % 10)], hd, fun _ => hpos (by omega), ?_⟩
      rw [if_neg h10, heq]
      simp

theorem parseDigits_stop (a : Nat) (rest : List Char) (h : headDigit rest = false) :
    parseDigits a rest = (a, rest) := by
  cases rest with
  | nil => rfl
  | cons c cs =>
    cases hd : digitVal? c with
    | none => simp [parseDigits, hd]
    | some d => simp [headDigit, hd] at h

theorem parseDigits_natToChars (n : Nat) : ∀ (acc : Nat) (rest : List Char),
    parseDigits acc (natToChars n ++ rest) =
      parseDigits (acc * 10 ^ numDigits n + n) rest := by
  induction n using Nat.strong_induction_on with
  | _ n ih =>
    intro acc rest
    rw [natToChars_eq]
    by_cases h10 : n < 10
    · rw [if_pos h10]
      have hd := digitVal?_digitChar n h10
      have hnd : numDigits n = 1 := by rw [numDigits, if_pos h10]
      simp [parseDigits, hd, hnd]
    · rw [if_neg h10, List.append_assoc,
        ih (n / 10) (Nat.div_lt_self (by omega) (by omega)) acc _]
      have hd := digitVal?_digitChar (n % 10) (by omega)
      simp only [List.singleton_append]
      have hstep : ∀ a, parseDigits a (digitChar (n % 10) :: rest) =
          parseDigits (a * 10 + n % 10) rest := by
        intro a; simp [parseDigits, hd]
      rw [hstep]
      have hnd : numDigits n = numDigits (n / 10) + 1 := by
        rw [numDigits]; rw [if_neg h10]
      have harith : (acc * 10 ^ numDigits (n / 10) + n / 10) * 10 + n % 10 =
          acc * 10 ^ (numDigits (n / 10) + 1) + n := by
        have hmod : 10 * (n / 10) + n % 10 = n := Nat.div_add_mod n 10
        have : (acc * 10 ^ numDigits (n / 10) + n / 10) * 10 + n % 10 =
            acc * (10 ^ numDigits (n / 10) * 10) + (10 * (n / 10) + n % 10) := by ring
        rw [this, hmod, pow_succ]
      rw [harith, hnd]

theorem parseNumberNat_natToChars (n : Nat) (rest : List Char)
    (h : headDigit rest = false) :
    parseNumberNat (natToChars n ++ rest) = some (n, rest) := by
  rcases Nat.eq_zero_or_pos n with hn | hn
  · subst hn
    have h0 : natToChars 0 = [digitChar 0] := by rw [natToChars_eq]; simp
    rw [h0]
    have hd := digitVal?_digitChar 0 (by omega)
    simp [parseNumberNat, hd, parseDigits_stop _ _ h]
  · obtain ⟨d, t, hd10, hpos, heq⟩ := natToChars_head n
    have hd1 : 1 ≤ d := hpos hn
    obtain ⟨d', rfl⟩ : ∃ d', d = d' + 1 := ⟨d - 1, by omega⟩
    have hdv := digitVal?_digitChar (d' + 1) hd10
    rw [heq]
    simp only [List.cons_append, parseNumberNat, hdv]
    rw [← List.cons_append, ← heq, parseDigits_natToChars]
    have hz : 0 * 10 ^ numDigits n + n = n := by ring
    rw [hz, parseDigits_stop _ _ h]

theorem parseNumber_intChars (n : Int) (rest : List Char)
    (h : headDigit rest = false) :
    parseNumber (intChars n ++ rest) = some (n, rest) := by
  by_cases hn : n < 0
  · rw [intChars, if_pos hn, List.cons_append]
    rw [show parseNumber ('-' :: (natToChars n.natAbs ++ rest)) =
        (parseNumberNat (natToChars n.natAbs ++ rest)).map (fun p => (-(p.1 : Int), p.2))
        from rfl]
    rw [parseNumberNat_natToChars _ _ h]
    simp only [Option.map_some']
    have : -((n.natAbs : Nat) : Int) = n := by omega
    rw [this]
  · rw [intChars, if_neg hn]
    obtain ⟨d, t, hd10, hpos, heq⟩ := natToChars_head n.natAbs
    rw [heq]
    simp only [List.cons_append, parseNumber, if_neg (digitChar_ne d hd10).1]
    rw [← List.cons_append, ← heq, parseNumberNat_natToChars _ _ h]
    simp only [Option.map_some']
    have : ((n.natAbs : Nat) : Int) = n := by omega
    rw [this]

theorem hex4?_eq (x y : Nat) (hx : x < 16) (hy : y < 16) :
    hex4? '0' '0' (hexDigitChar x) (hexDigitChar y) = some (x * 16 + y) := by
  have ha := hexVal?_hexDigitChar x hx
  have hb := hexVal?_hexDigitChar y hy
  simp only [hex4?, ha, hb, show hexVal? '0' = some 0 from rfl]
  congr 1
  omega

/-- The parser undoes the escaping of a single character. -/
theorem escChar_step (c : Char) (f : Nat) (tail : List Char) :
    parseStrBody (f + 1) (escChar c ++ tail) =
      (parseStrBody f tail).map fun (s, r) => (c :: s, r) := by
  rw [escChar]
  split_ifs with h1 h2 h3 h4 h5 h6 h7 h8
  · subst h1; rfl
  · subst h2; rfl
  · subst h3; rfl
  · subst h4; rfl
  · subst h5; rfl
  · subst h6; rfl
  · subst h7; rfl
  · -- `\u00xx` escape for the remaining control characters
    simp only [List.cons_append, List.nil_append]
    rw [show parseStrBody (f + 1)
        ('\\' :: 'u' :: '0' :: '0' :: hexDigitChar (c.toNat / 16) ::
          hexDigitChar (c.toNat % 16) :: tail) =
        (match hex4? '0' '0' (hexDigitChar (c.toNat / 16)) (hexDigitChar (c.toNat % 16)) with
          | some n =>
            if n < 55296 ∨ 57344 ≤ n then
              (parseStrBody f tail).map fun p => (Char.ofNat n :: p.1, p.2)
            else none
          | none => none) from rfl]
    rw [hex4?_eq _ _ (by omega) (by omega),
      show c.toNat / 16 * 16 + c.toNat % 16 = c.toNat from by omega]
    show (if c.toNat < 55296 ∨ 57344 ≤ c.toNat then
        (parseStrBody f tail).map fun p => (Char.ofNat c.toNat :: p.1, p.2)
      else none) = _
    rw [if_pos (Or.inl (by omega)), Char.ofNat_toNat]
  · -- plain character
    simp only [List.singleton_append, parseStrBody]
    rw [if_neg h1, if_neg h2, if_neg h8]

/-- The parser undoes the escaping of a whole string body. -/
theorem parseStrBody_escChars : ∀ (cs : List Char) (f : Nat) (rest : List Char),
    cs.length < f → parseStrBody f (escChars cs ++ '"' :: rest) = some (cs, rest) := by
  intro cs
  induction cs with
  | nil =>
    intro f rest hf
    obtain ⟨g, rfl⟩ : ∃ g, f = g + 1 := ⟨f - 1, by omega⟩
    rfl
  | cons c cs ih =>
    intro f rest hf
    obtain ⟨g, rfl⟩ : ∃ g, f = g + 1 := ⟨f - 1, by omega⟩
    rw [show escChars (c :: cs) = escChar c ++ escChars cs from rfl, List.append_assoc,
      escChar_step]
    rw [ih g rest (by simp only [List.length_cons] at hf; omega)]
    rfl

/-- Escaping never shortens a string. -/
theorem escChars_length : ∀ cs : List Char, cs.length ≤ (escChars cs).length := by
  intro cs
  induction cs with
  | nil => simp [escChars]
  | cons c cs ih =>
    have h1 : 1 ≤ (escChar c).length := by
      rw [escChar]; split_ifs <;> simp
    simp only [escChars, List.length_append, List.length_cons]
    omega

/-- Head characters after which the parser neither skips whitespace nor
mistakes the input for the end of an enclosing array or object. -/
def headOk (c : Char) : Bool :=
  !(isWsChar c || c == ']' || c == '\x7d')

theorem headOk_elim {c : Char} (h : headOk c = true) :
    isWsChar c = false ∧ c ≠ ']' ∧ c ≠ '\x7d' := by
  simp only [headOk, Bool.not_eq_eq_eq_not, Bool.not_true, Bool.or_eq_false_iff,
    beq_eq_false_iff_ne, ne_eq] at h
  exact ⟨h.1.1, h.1.2, h.2⟩

theorem digitChar_headOk : ∀ d, d < 10 → headOk (digitChar d) = true := by decide

/-- Every serialized value starts with a character accepted by `headOk`. -/
theorem serializeV_head (v : JsonValue) :
    ∃ c t, serializeV v = c :: t ∧ headOk c = true := by
  cases v with
  | null => exact ⟨'n', _, rfl, rfl⟩
  | bool b =>
    cases b with
    | true => exact ⟨'t', _, rfl, rfl⟩
    | false => exact ⟨'f', _, rfl, rfl⟩
  | num n =>
    show ∃ c t, intChars n = c :: t ∧ _
    by_cases hn : n < 0
    · refine ⟨'-', natToChars n.natAbs, ?_, rfl⟩
      rw [intChars, if_pos hn]
    · obtain ⟨d, t, hd, _, heq⟩ := natToChars_head n.natAbs
      refine ⟨digitChar d, t, ?_, digitChar_headOk d hd⟩
      rw [intChars, if_neg hn, heq]
  | str s => exact ⟨'"', _, rfl, rfl⟩
  | arr es => exact ⟨'[', _, rfl, rfl⟩
  | obj ms => exact ⟨'\x7b', _, rfl, rfl⟩

theorem serializeElems_head (v : JsonValue) (vs : JsonElems) :
    ∃ c t, serializeElems (.cons v vs) = c :: t ∧ headOk c = true := by
  obtain ⟨c, t, hct, h1⟩ := serializeV_head v
  cases vs with
  | nil =>
    exact ⟨c, t, by rw [show serializeElems (.cons v .nil) = serializeV v from rfl, hct], h1⟩
  | cons w ws =>
    refine ⟨c, t ++ ',' :: serializeElems (.cons w ws), ?_, h1⟩
    rw [show serializeElems (.cons v (.cons w ws)) =
        serializeV v ++ ',' :: serializeElems (.cons w ws) from rfl, hct]
    simp

/-! Lower bounds on the parser fuel sufficient for each serialized form. -/

mutual

/-- Fuel needed by `parseVal` on a serialized value. -/
def needV : JsonValue → Nat
  | .arr es => needE es + 1
  | .obj ms => needM ms + 1
  | _ => 1

/-- Fuel needed by `parseElems` on a serialized element list. -/
def needE : JsonElems → Nat
  | .nil => 1
  | .cons v vs => needV v + needE vs + 1

/-- Fuel needed by `parseMembers` on a serialized member list. -/
def needM : JsonMembers → Nat
  | .nil => 1
  | .cons _ v ms => needV v + needM ms + 1

end

theorem needV_pos (v : JsonValue) : 1 ≤ needV v := by
  cases v <;> simp [needV]

/-! Dispatch lemmas stepping `parseVal` over one input head character. -/

theorem parseVal_step_quote (f : Nat) (X : List Char) :
    parseVal (f + 1) ('"' :: X) =
      (parseStrBody (X.length + 1) X).map fun (s, r) => (.str ⟨s⟩, r) := rfl

theorem parseVal_arr_go (f : Nat) (X : List Char) (c2 : Char) (r2 : List Char)
    (hX : skipWs X = c2 :: r2) (hne : c2 ≠ ']') :
    parseVal (f + 1) ('[' :: X) =
      (parseElems f (c2 :: r2)).map fun p => (.arr p.1, p.2) := by
  rw [show parseVal (f + 1) ('[' :: X) =
      (match skipWs X with
       | [] => none
       | c2 :: r2 =>
         if c2 = ']' then some (.arr .nil, r2)
         else (parseElems f (c2 :: r2)).map fun p => (.arr p.1, p.2)) from rfl, hX]
  simp only [if_neg hne]

theorem parseVal_obj_go (f : Nat) (X : List Char) (c2 : Char) (r2 : List Char)
    (hX : skipWs X = c2 :: r2) (hne : c2 ≠ '\x7d') :
    parseVal (f + 1) ('\x7b' :: X) =
      (parseMembers f (c2 :: r2)).map fun p => (.obj p.1, p.2) := by
  rw [show parseVal (f + 1) ('\x7b' :: X) =
      (match skipWs X with
       | [] => none
       | c2 :: r2 =>
         if c2 = '\x7d' then some (.obj .nil, r2)
         else (parseMembers f (c2 :: r2)).map fun p => (.obj p.1, p.2)) from rfl, hX]
  simp only [if_neg hne]

theorem parseVal_step_minus (f : Nat) (X : List Char) :
    parseVal (f + 1) ('-' :: X) = (parseNumber ('-' :: X)).map fun p => (.num p.1, p.2) := rfl

theorem parseVal_num_go (f : Nat) (c : Char) (X : List Char)
    (hws : isWsChar c = false) (h1 : c ≠ 'n') (h2 : c ≠ 't') (h3 : c ≠ 'f')
    (h4 : c ≠ '"') (h5 : c ≠ '[') (h6 : c ≠ '\x7b') :
    parseVal (f + 1) (c :: X) = (parseNumber (c :: X)).map fun p => (.num p.1, p.2) := by
  have hsk : skipWs (c :: X) = c :: X := skipWs_cons_of hws X
  simp only [parseVal, hsk]
  rw [if_neg h1, if_neg h2, if_neg h3, if_neg h4, if_neg h5, if_neg h6]

theorem parseElems_go (f : Nat) (cs : List Char) (v : JsonValue) (X : List Char)
    (hPV : parseVal f cs = some (v, X)) :
    parseElems (f + 1) cs =
      (match skipWs X with
       | [] => none
       | c :: r2 =>
         if c = ',' then (parseElems f r2).map fun p => (.cons v p.1, p.2)
         else if c = ']' then some (.cons v .nil, r2)
         else none) := by
  simp only [parseElems, hPV]

theorem parseMembers_go (f : Nat) (kcs : List Char) (X : List Char) :
    parseMembers (f + 1) ('"' :: (escChars kcs ++ '"' :: X)) =
      (match skipWs X with
       | [] => none
       | c2 :: r3 =>
         if c2 = ':' then
           match parseVal f r3 with
           | none => none
           | some (v, r4) =>
             match skipWs r4 with
             | [] => none
             | c3 :: r5 =>
               if c3 = ',' then (parseMembers f r5).map fun p => (.cons ⟨kcs⟩ v p.1, p.2)
               else if c3 = '\x7d' then some (.cons ⟨kcs⟩ v .nil, r5)
               else none
         else none) := by
  simp only [parseMembers]
  rw [skipWs_cons_of (by decide : isWsChar '"' = false)]
  simp only [if_pos rfl]
  rw [parseStrBody_escChars kcs _ X (by
    have := escChars_length kcs
    simp only [List.length_append, List.length_cons]
    omega)]
  simp only [if_true]

/-! The round-trip itself, by mutual induction on the value. -/

mutual

theorem rtV (v : JsonValue) (f : Nat) (rest : List Char) (hf : needV v ≤ f)
    (hrest : headDigit rest = false) :
    parseVal f (serializeV v ++ rest) = some (v, rest) := by
  obtain ⟨g, rfl⟩ : ∃ g, f = g + 1 := ⟨f - 1, by have := needV_pos v; omega⟩
  cases v with
  | null => rfl
  | bool b =>
    cases b with
    | true => rfl
    | false => rfl
  | num n =>
    show parseVal (g + 1) (intChars n ++ rest) = some (.num n, rest)
    by_cases hn : n < 0
    · have hc : intChars n ++ rest = '-' :: (natToChars n.natAbs ++ rest) := by
        rw [intChars, if_pos hn]; rfl
      rw [hc, parseVal_step_minus, ← hc, parseNumber_intChars n rest hrest]
      rfl
    · obtain ⟨d, t, hd, _, heq⟩ := natToChars_head n.natAbs
      have hc : intChars n ++ rest = digitChar d :: (t ++ rest) := by
        rw [intChars, if_neg hn, heq]; rfl
      obtain ⟨ne1, ne2, ne3, ne4, ne5, ne6, ne7, _, _⟩ := digitChar_ne d hd
      rw [hc, parseVal_num_go g _ _ (digitChar_not_ws d hd) ne2 ne3 ne4 ne5 ne6 ne7,
        ← hc, parseNumber_intChars n rest hrest]
      rfl
  | str s =>
    show parseVal (g + 1) (quoteChars s.data ++ rest) = some (.str s, rest)
    rw [show quoteChars s.data ++ rest = '"' :: (escChars s.data ++ '"' :: rest) from by
      rw [quoteChars]; simp]
    rw [parseVal_step_quote]
    rw [parseStrBody_escChars s.data _ rest (by
      have := escChars_length s.data
      simp only [List.length_append, List.length_cons]
      omega)]
    rfl
  | arr es =>
    cases es with
    | nil => rfl
    | cons v vs =>
      show parseVal (g + 1) ('[' :: ((serializeElems (.cons v vs) ++ [']']) ++ rest)) = _
      obtain ⟨c, t, hct, hok⟩ := serializeElems_head v vs
      obtain ⟨hws, hne, -⟩ := headOk_elim hok
      have hX : (serializeElems (.cons v vs) ++ [']']) ++ rest = c :: (t ++ ']' :: rest) := by
        rw [hct]; simp
      rw [hX, parseVal_arr_go g _ c (t ++ ']' :: rest) (skipWs_cons_of hws _) hne]
      rw [show c :: (t ++ ']' :: rest) = serializeElems (.cons v vs) ++ ']' :: rest from by
        rw [hct]; simp]
      rw [rtE v vs g rest (by
        have h1 : needV (.arr (.cons v vs)) = needE (.cons v vs) + 1 := rfl
        omega)]
      rfl
  | obj ms =>
    cases ms with
    | nil => rfl
    | cons k v ms =>
      show parseVal (g + 1) ('\x7b' :: ((serializeMembers (.cons k v ms) ++ ['\x7d']) ++ rest)) = _
      have hM : ∃ t2, serializeMembers (.cons k v ms) = '"' :: t2 := by
        cases ms with
        | nil => exact ⟨_, rfl⟩
        | cons k2 v2 ms2 => exact ⟨_, rfl⟩
      obtain ⟨t2, ht2⟩ := hM
      have hX : (serializeMembers (.cons k v ms) ++ ['\x7d']) ++ rest
          = '"' :: (t2 ++ '\x7d' :: rest) := by rw [ht2]; simp
      rw [hX, parseVal_obj_go g _ '"' (t2 ++ '\x7d' :: rest)
        (skipWs_cons_of (by decide) _) (by decide)]
      rw [show '"' :: (t2 ++ '\x7d' :: rest) = serializeMembers (.cons k v ms) ++ '\x7d' :: rest
        from by rw [ht2]; simp]
      rw [rtM k v ms g rest (by
        have h1 : needV (.obj (.cons k v ms)) = needM (.cons k v ms) + 1 := rfl
        omega)]
      rfl
termination_by sizeOf v

theorem rtE (v : JsonValue) (vs : JsonElems) (f : Nat) (rest : List Char)
    (hf : needE (.cons v vs) ≤ f) :
    parseElems f (serializeElems (.cons v vs) ++ ']' :: rest) = some (.cons v vs, rest) := by
  have h1 : needE (.cons v vs) = needV v + needE vs + 1 := rfl
  obtain ⟨g, rfl⟩ : ∃ g, f = g + 1 := ⟨f - 1, by omega⟩
  cases vs with
  | nil =>
    show parseElems (g + 1) (serializeV v ++ ']' :: rest) = some (.cons v .nil, rest)
    rw [parseElems_go g _ v (']' :: rest)
      (rtV v g (']' :: rest) (by have h2 : needE JsonElems.nil = 1 := rfl; omega) rfl)]
    rfl
  | cons w ws =>
    show parseElems (g + 1)
        ((serializeV v ++ ',' :: serializeElems (.cons w ws)) ++ ']' :: rest) = _
    rw [List.append_assoc]
    simp only [List.cons_append]
    rw [parseElems_go g _ v (',' :: (serializeElems (.cons w ws) ++ ']' :: rest))
      (rtV v g _ (by omega) rfl)]
    show (parseElems g (serializeElems (.cons w ws) ++ ']' :: rest)).map
        (fun p => (JsonElems.cons v p.1, p.2)) = _
    rw [rtE w ws g rest (by
      have h2 : needE (.cons w ws) = needV w + needE ws + 1 := rfl
      omega)]
    rfl
termination_by sizeOf (JsonElems.cons v vs)

theorem rtM (k : String) (v : JsonValue) (ms : JsonMembers) (f : Nat) (rest : List Char)
    (hf : needM (.cons k v ms) ≤ f) :
    parseMembers f (serializeMembers (.cons k v ms) ++ '\x7d' :: rest)
      = some (.cons k v ms, rest) := by
  have h1 : needM (.cons k v ms) = needV v + needM ms + 1 := rfl
  obtain ⟨g, rfl⟩ : ∃ g, f = g + 1 := ⟨f - 1, by omega⟩
  cases ms with
  | nil =>
    have hX : serializeMembers (.cons k v .nil) ++ '\x7d' :: rest
        = '"' :: (escChars k.data ++ '"' :: (':' :: (serializeV v ++ '\x7d' :: rest))) := by
      rw [show serializeMembers (.cons k v .nil) = quoteChars k.data ++ ':' :: serializeV v
        from rfl, quoteChars]
      simp
    rw [hX, parseMembers_go]
    rw [skipWs_cons_of (by decide : isWsChar ':' = false)]
    simp only [if_pos rfl]
    rw [rtV v g ('\x7d' :: rest) (by omega) rfl]
    rfl
  | cons k2 v2 ms2 =>
    have hX : serializeMembers (.cons k v (.cons k2 v2 ms2)) ++ '\x7d' :: rest
        = '"' :: (escChars k.data ++ '"' :: (':' ::
            (serializeV v ++ ',' :: (serializeMembers (.cons k2 v2 ms2) ++ '\x7d' :: rest)))) := by
      rw [show serializeMembers (.cons k v (.cons k2 v2 ms2)) =
          (quoteChars k.data ++ ':' :: serializeV v) ++
            ',' :: serializeMembers (.cons k2 v2 ms2) from rfl, quoteChars]
      simp
    rw [hX, parseMembers_go]
    rw [skipWs_cons_of (by decide : isWsChar ':' = false)]
    simp only [if_pos rfl]
    rw [rtV v g (',' :: (serializeMembers (.cons k2 v2 ms2) ++ '\x7d' :: rest)) (by omega) rfl]
    show (parseMembers g (serializeMembers (.cons k2 v2 ms2) ++ '\x7d' :: rest)).map
        (fun p => (JsonMembers.cons k v p.1, p.2)) = _
    rw [rtM k2 v2 ms2 g rest (by
      have h2 : needM (.cons k2 v2 ms2) = needV v2 + needM ms2 + 1 := rfl
      omega)]
    rfl
termination_by sizeOf (JsonMembers.cons k v ms)

end

/-! The fuel chosen by `JSONParse` dominates the bound required by the
round-trip lemmas. -/

mutual

theorem needV_le (v : JsonValue) : needV v ≤ 2 * (serializeV v).length := by
  cases v with
  | null => decide
  | bool b => cases b <;> decide
  | num n =>
    obtain ⟨d, t, _, _, heq⟩ := natToChars_head n.natAbs
    by_cases hn : n < 0 <;>
      simp [needV, serializeV, intChars, hn, heq] <;> omega
  | str s =>
    simp only [needV, serializeV, quoteChars, List.length_cons, List.length_append]
    omega
  | arr es =>
    have h := needE_le es
    simp only [needV, serializeV, List.length_cons, List.length_append]
    omega
  | obj ms =>
    have h := needM_le ms
    simp only [needV, serializeV, List.length_cons, List.length_append]
    omega

theorem needE_le (es : JsonElems) : needE es ≤ 2 * (serializeElems es).length + 2 := by
  cases es with
  | nil => simp [needE, serializeElems]
  | cons v vs =>
    cases vs with
    | nil =>
      have h := needV_le v
      simp only [needE, serializeElems]
      omega
    | cons w ws =>
      have h1 := needV_le v
      have h2 := needE_le (.cons w ws)
      simp only [needE, serializeElems, List.length_append, List.length_cons]
      simp only [needE] at h2
      omega

theorem needM_le (ms : JsonMembers) : needM ms ≤ 2 * (serializeMembers ms).length + 2 := by
  cases ms with
  | nil => simp [needM, serializeMembers]
  | cons k v ms =>
    cases ms with
    | nil =>
      have h := needV_le v
      simp only [needM, serializeMembers, List.length_append, List.length_cons]
      omega
    | cons k2 v2 ms2 =>
      have h1 := needV_le v
      have h2 := needM_le (.cons k2 v2 ms2)
      simp only [needM, serializeMembers, List.length_append, List.length_cons]
      simp only [needM] at h2
      omega

end

/-- Round-trip: parsing a serialized JSON value recovers the value. -/
theorem JSONParse_stringify (v : JsonValue) :
    JSONParse (JSONStringifyValue v) = some v := by
  have hb := needV_le v
  have hPV : parseVal (2 * (JSONStringifyValue v).data.length + 2) (JSONStringifyValue v).data
      = some (v, []) := by
    have h2 : (JSONStringifyValue v).data = serializeV v := rfl
    rw [h2]
    have h3 := rtV v (2 * (serializeV v).length + 2) [] (by omega) rfl
    rw [List.append_nil] at h3
    exact h3
  simp only [JSONParse, hPV]
  rfl

/-! ### The JavaScript layer

`InlineKeyboard.json` receives an arbitrary JavaScript value.  Besides the
values of the JSON data model, the cases that matter for the encoder are
values that `JSON.stringify` cannot render: values serialized to the
*undefined* result (`undefined`, functions, symbols — collapsed into
`JsValue.undef`), and values on which `JSON.stringify` throws (cyclic
structures — `JsValue.circular`).  Thrown JavaScript errors are modelled
by `JsError`, carrying the constructor name and the message. -/

inductive JsValue where
  | json (v : JsonValue) : JsValue
  | undef : JsValue
  | circular : JsValue

/-- A thrown JavaScript error: constructor name (`Error`, `TypeError`,
`SyntaxError`) and message. -/
structure JsError where
  name : String
  message : String

/-- Model of the builtin `JSON.stringify` on a JavaScript value: returns
a string, returns the undefined result (`none`), or throws (per
ECMAScript, a cyclic structure raises a `TypeError`). -/
def JSONStringify : JsValue → Except JsError (Option String)
  | .json v => .ok (some (JSONStringifyValue v))
  | .undef => .ok none
  | .circular => .error ⟨"TypeError", "Converting circular structure to JSON"⟩

/-- Model of the builtin `JSON.parse`, which throws a `SyntaxError` on
malformed input. -/
def JSONParseThrow (s : String) : Except JsError JsonValue :=
  match JSONParse s with
  | some v => .ok v
  | none => .error ⟨"SyntaxError", "Unexpected token in JSON"⟩

/-! ### `InlineKeyboard` (src/mod.ts lines 28-63)

The grammY base class stores the button grid in the `inline_keyboard`
field; `add` pushes a button onto the current (last) row, `row` opens a
new row, and the static `text` helper builds a callback-button object.
These members come from the external grammY dependency re-exported by
`deps.deno.ts`; the repository's own tests (`mod_test.ts`) exercise
exactly this behaviour. -/

/-- `InlineKeyboardButton.CallbackButton`: a label with callback data. -/
structure CallbackButton where
  text : String
  callback_data : String

/-- The grammY inline-keyboard builder: a list of rows of buttons. -/
structure BaseInlineKeyboard where
  inline_keyboard : List (List CallbackButton)

/-- `new InlineKeyboard()`: one empty row. -/
def BaseInlineKeyboard.empty : BaseInlineKeyboard := ⟨[[]]⟩

/-- Push a button onto the last row (no-op when there are no rows),
as `this.inline_keyboard[this.inline_keyboard.length - 1]?.push(btn)`. -/
def pushToLastRow : List (List CallbackButton) → CallbackButton → List (List CallbackButton)
  | [], _ => []
  | [r], b => [r ++ [b]]
  | r :: rs, b => r :: pushToLastRow rs b

/-- `InlineKeyboard.add(btn)`: append to the current row, return the builder. -/
def BaseInlineKeyboard.add (kb : BaseInlineKeyboard) (b : CallbackButton) : BaseInlineKeyboard :=
  ⟨pushToLastRow kb.inline_keyboard b⟩

/-- `InlineKeyboard.row()` with no arguments: start a new (empty) row. -/
def BaseInlineKeyboard.row (kb : BaseInlineKeyboard) : BaseInlineKeyboard :=
  ⟨kb.inline_keyboard ++ [[]]⟩

/-- Static `InlineKeyboard.text(text, data)`: a callback-button object. -/
def BaseInlineKeyboard.textButton (text callback_data : String) : CallbackButton :=
  ⟨text, callback_data⟩

namespace InlineKeyboard

/-- Static `InlineKeyboard.json(text, data = {})` from src/mod.ts:

```ts
const encoded = JSON.stringify(data);
if (typeof encoded !== "string") {
    throw new Error("Callback data could not be serialized to JSON");
}
const byteLength = new TextEncoder().encode(encoded).byteLength;
if (byteLength > 64) {
    throw new Error(`Callback data exceeds 64 bytes: $\x7bbyteLength\x7d ($\x7bencoded\x7d)`);
}
return BaseInlineKeyboard.text(text, encoded);
```

`new TextEncoder().encode(encoded).byteLength` is the UTF-8 byte length,
i.e. `String.utf8ByteSize`.  Thrown errors surface in the `Except` error
channel. -/
def json (text : String) (data : JsValue := .json (.obj .nil)) :
    Except JsError CallbackButton :=
  match JSONStringify data with
  | .error e => .error e
  | .ok none => .error ⟨"Error", "Callback data could not be serialized to JSON"⟩
  | .ok (some encoded) =>
    let byteLength := encoded.utf8ByteSize
    if byteLength > 64 then
      .error ⟨"Error", "Callback data exceeds 64 bytes: " ++ toString byteLength ++
        " (" ++ encoded ++ ")"⟩
    else
      .ok (BaseInlineKeyboard.textButton text encoded)

/-- Instance method `json(text, data = {})`:
`return this.add(InlineKeyboard.json(text, data));` -/
def jsonAdd (kb : BaseInlineKeyboard) (text : String)
    (data : JsValue := .json (.obj .nil)) : Except JsError BaseInlineKeyboard :=
  match json text data with
  | .ok b => .ok (kb.add b)
  | .error e => .error e

end InlineKeyboard

/-- A chain of instance-method calls
`kb.json(t₁, d₁).json(t₂, d₂)...` with no intervening `row()`. -/
def jsonChain (kb : BaseInlineKeyboard) :
    List (String × JsValue) → Except JsError BaseInlineKeyboard
  | [] => .ok kb
  | (t, d) :: rest =>
    match InlineKeyboard.jsonAdd kb t d with
    | .ok kb2 => jsonChain kb2 rest
    | .error e => .error e

/-! ### The `jsonQuery` middleware (src/mod.ts lines 104-121)

The middleware body is

```ts
composer.use((ctx, next) => {
    Object.defineProperty(ctx, "jsonQuery", {
        get() {
            const data = ctx.callbackQuery?.data;
            if (typeof data !== "string") return undefined;
            try { return JSON.parse(data); } catch { return undefined; }
        },
        configurable: true,
        enumerable: true,
    });
    return next();
});
```

The context is modelled by the part the stage touches: the raw
`ctx.callbackQuery?.data` field (absent, a string, or some non-string
value — `CallbackData.nonText` — to capture the `typeof` check), plus the
state of the `jsonQuery` own property.  The property installed is an
*accessor* property whose getter body is the code above; reading the
property runs the body anew on every read (there is no memoization cell
in the source), which `readJsonQuery` makes observable by also counting
how many times `JSON.parse` is invoked by the read. -/

/-- The raw callback-query `data` field: textual or not. -/
inductive CallbackData where
  | text (s : String) : CallbackData
  | nonText : CallbackData

/-- Attributes of the installed `jsonQuery` property descriptor. -/
structure JsonQueryProp where
  configurable : Bool
  enumerable : Bool

/-- The descriptor used by the middleware: `configurable: true, enumerable: true`. -/
def jsonQueryDescriptor : JsonQueryProp := ⟨true, true⟩

/-- The part of the grammY `Context` that the plugin touches. -/
structure Context where
  callbackData : Option CallbackData
  jsonQueryProp : Option JsonQueryProp

/-- A fresh context built by the framework from an inbound update: the
grammY `Context` class has no own `jsonQuery` property. -/
def Context.ofUpdate (cd : Option CallbackData) : Context := ⟨cd, none⟩

/-- `Object.defineProperty(ctx, "jsonQuery", desc)`: per ECMAScript,
redefining an existing non-configurable own property throws a
`TypeError`; otherwise the descriptor is (re)installed. -/
def defineJsonQueryProperty (ctx : Context) (desc : JsonQueryProp) :
    Except JsError Context :=
  match ctx.jsonQueryProp with
  | some old =>
    if old.configurable then .ok { ctx with jsonQueryProp := some desc }
    else .error ⟨"TypeError", "Cannot redefine property: jsonQuery"⟩
  | none => .ok { ctx with jsonQueryProp := some desc }

/-- One run of the getter body installed by the middleware: the decoded
value it returns (`none` = `undefined`), paired with the number of
`JSON.parse` invocations the run performs.  The `try`/`catch` around
`JSON.parse` is explicit: a parse error is caught and normalized to
`undefined`, never propagated. -/
def jsonQueryGetter (ctx : Context) : Option JsonValue × Nat :=
  match ctx.callbackData with
  | some (.text s) =>
    match JSONParseThrow s with
    | .ok v => (some v, 1)
    | .error _ => (none, 1)
  | _ => (none, 0)

/-- Reading `ctx.jsonQuery`: an accessor property runs its getter body on
every read; if the property was never installed the read yields
`undefined` without running anything. -/
def readJsonQuery (ctx : Context) : Option JsonValue × Nat :=
  match ctx.jsonQueryProp with
  | some _ => jsonQueryGetter ctx
  | none => (none, 0)

/-- Two consecutive reads of `ctx.jsonQuery` on the same context: both
results, with the total number of `JSON.parse` invocations. -/
def readJsonQueryTwice (ctx : Context) : (Option JsonValue × Option JsonValue) × Nat :=
  let r1 := readJsonQuery ctx
  let r2 := readJsonQuery ctx
  ((r1.1, r2.1), r1.2 + r2.2)

/-- The middleware function registered by `jsonQuery()`: install the
accessor property, then `return next()`.  The continuation is modelled
with an explicit state `σ` threaded through it so that the number of
continuation invocations is observable; a `defineProperty` failure would
propagate out of the stage (error channel). -/
def jsonQueryMiddlewareStage {σ α : Type} (ctx : Context)
    (next : Context → σ → α × σ) (s : σ) : Except JsError (α × σ) :=
  match defineJsonQueryProperty ctx jsonQueryDescriptor with
  | .ok ctx2 => .ok (next ctx2 s)
  | .error e => .error e

/-! ### Helper lemmas about the encoder -/

/-- The error message built by the over-size branch of the encoder. -/
def tooLargeMessage (encoded : String) : String :=
  "Callback data exceeds 64 bytes: " ++ toString encoded.utf8ByteSize ++
    " (" ++ encoded ++ ")"

theorem json_ok_of_le (t : String) (v : JsonValue)
    (h : (JSONStringifyValue v).utf8ByteSize ≤ 64) :
    InlineKeyboard.json t (.json v) = .ok ⟨t, JSONStringifyValue v⟩ := by
  unfold InlineKeyboard.json JSONStringify
  simp only []
  rw [if_neg (by omega)]
  rfl

theorem json_err_of_gt (t : String) (v : JsonValue)
    (h : 64 < (JSONStringifyValue v).utf8ByteSize) :
    InlineKeyboard.json t (.json v) =
      .error ⟨"Error", tooLargeMessage (JSONStringifyValue v)⟩ := by
  unfold InlineKeyboard.json JSONStringify
  simp only []
  rw [if_pos (by omega)]
  rfl

theorem pushToLastRow_append :
    ∀ (rs : List (List CallbackButton)) (r : List CallbackButton) (b : CallbackButton),
    pushToLastRow (rs ++ [r]) b = rs ++ [r ++ [b]] := by
  intro rs
  induction rs with
  | nil => intro r b; rfl
  | cons r0 rs ih =>
    intro r b
    cases rs with
    | nil => rfl
    | cons r1 rs' =>
      show r0 :: pushToLastRow ((r1 :: rs') ++ [r]) b = r0 :: ((r1 :: rs') ++ [r ++ [b]])
      rw [ih]

theorem jsonChain_snoc (calls : List (String × JsonValue)) :
    ∀ (rs : List (List CallbackButton)) (r : List CallbackButton),
    (∀ p ∈ calls, (JSONStringifyValue p.2).utf8ByteSize ≤ 64) →
    jsonChain ⟨rs ++ [r]⟩ (calls.map fun p => (p.1, .json p.2)) =
      .ok ⟨rs ++ [r ++ calls.map fun p => ⟨p.1, JSONStringifyValue p.2⟩]⟩ := by
  induction calls with
  | nil => intro rs r h; simp [jsonChain]
  | cons p ps ih =>
    intro rs r h
    obtain ⟨t, v⟩ := p
    simp only [List.map_cons]
    show jsonChain ⟨rs ++ [r]⟩ ((t, .json v) :: ps.map fun p => (p.1, .json p.2)) = _
    have hok := json_ok_of_le t v (h (t, v) (by simp))
    simp only [jsonChain, InlineKeyboard.jsonAdd, hok]
    rw [show BaseInlineKeyboard.add ⟨rs ++ [r]⟩ ⟨t, JSONStringifyValue v⟩
        = ⟨rs ++ [r ++ [⟨t, JSONStringifyValue v⟩]]⟩ from by
      simp [BaseInlineKeyboard.add, pushToLastRow_append]]
    rw [ih _ _ (fun q hq => h q (by simp [hq]))]
    simp

example : JSONParse "42" = some (.num 42) := rfl
example : JSONParse "[1,2,3]" = some (.arrOf [.num 1, .num 2, .num 3]) := rfl
example : JSONParse "plain-text" = none := rfl
example : JSONParse " \x7b\"a\": [true, null] \x7d " =
    some (.objOf [("a", .arrOf [.bool true, .null])]) := rfl
example : JSONStringifyValue (.objOf [("action", .str "like"), ("id", .num 42)]) =
    "\x7b\"action\":\"like\",\"id\":42\x7d" := rfl
example : JSONStringifyValue (.str "a\"b\n\x01") = "\"a\\\"b\\n\\u0001\"" := rfl
example : JSONParse (JSONStringifyValue (.str "a\"b\n\x01")) = some (.str "a\"b\n\x01") := rfl

/-! ### Claims -/

/-- C1 (counterexample): the claim says the decoded-payload accessor caches
its result so a second read of `ctx.jsonQuery` does not re-invoke JSON
parsing.  The getter installed by the middleware has no memoization cell:
on a context whose callback data is the text `[1,2,3]`, two reads perform
two `JSON.parse` invocations, not one. -/
theorem c1_counterexample :
    readJsonQueryTwice ⟨some (.text "[1,2,3]"), some jsonQueryDescriptor⟩ =
      ((some (.arrOf [.num 1, .num 2, .num 3]),
        some (.arrOf [.num 1, .num 2, .num 3])), 2) ∧
    (2 : Nat) ≠ 1 :=
  ⟨rfl, by decide⟩

/-- C1 (amended): reading `ctx.jsonQuery` twice on the same event returns
equal values both times (the getter is deterministic), but the result is
not cached: every read re-runs the getter body, so two reads perform twice
the `JSON.parse` invocations of one read (and object/array results are
freshly allocated on each read rather than reference-equal). -/
theorem c1_reread_reparses (ctx : Context) :
    (readJsonQueryTwice ctx).1.1 = (readJsonQueryTwice ctx).1.2 ∧
    (readJsonQueryTwice ctx).2 = 2 * (readJsonQuery ctx).2 := by
  refine ⟨rfl, ?_⟩
  show (readJsonQuery ctx).2 + (readJsonQuery ctx).2 = 2 * (readJsonQuery ctx).2
  omega

/-- C2 (counterexample): the claim says each chained call of the instance
method `InlineKeyboard.json` produces one new row.  The method delegates
to grammY's `add`, which appends to the current row: starting from a fresh
keyboard, the chain `.json("A", {}).json("B", {})` yields one row holding
both buttons (the repository's own test asserts exactly this), not the
two rows the claim predicts. -/
theorem c2_counterexample :
    jsonChain BaseInlineKeyboard.empty
        [("A", .json (.obj .nil)), ("B", .json (.obj .nil))] =
      .ok ⟨[[⟨"A", "\x7b\x7d"⟩, ⟨"B", "\x7b\x7d"⟩]]⟩ ∧
    (BaseInlineKeyboard.mk
      [[⟨"A", "\x7b\x7d"⟩, ⟨"B", "\x7b\x7d"⟩]]).inline_keyboard.length = 1 ∧
    (BaseInlineKeyboard.mk
      [[⟨"A", "\x7b\x7d"⟩, ⟨"B", "\x7b\x7d"⟩]]).inline_keyboard.length ≠ 2 :=
  ⟨rfl, rfl, by decide⟩

/-- C2 (amended): a sequence of chained instance-method calls with no
explicit row-break in between, starting from a fresh keyboard and with
every payload within the 64-byte bound, appends all buttons to the single
current row, in call order with labels and encoded payloads as given. -/
theorem c2_chain_single_row (calls : List (String × JsonValue))
    (h : ∀ p ∈ calls, (JSONStringifyValue p.2).utf8ByteSize ≤ 64) :
    jsonChain BaseInlineKeyboard.empty (calls.map fun p => (p.1, .json p.2)) =
      .ok ⟨[calls.map fun p => ⟨p.1, JSONStringifyValue p.2⟩]⟩ := by
  have h2 := jsonChain_snoc calls [] [] h
  simpa [BaseInlineKeyboard.empty] using h2

theorem c2_chain_single_row_witness :
    jsonChain BaseInlineKeyboard.empty
        ([("A", JsonValue.obj .nil), ("B", JsonValue.obj .nil)].map
          fun p => (p.1, .json p.2)) =
      .ok ⟨[[("A", JsonValue.obj .nil), ("B", JsonValue.obj .nil)].map
          fun p => ⟨p.1, JSONStringifyValue p.2⟩]⟩ :=
  c2_chain_single_row _ (by
    intro p hp
    simp only [List.mem_cons, List.not_mem_nil, or_false] at hp
    rcases hp with rfl | rfl <;> decide)

/-- C3: `InlineKeyboard.json` throws the over-size `Error` — whose message
carries the byte count and the offending encoded text — exactly when the
UTF-8 byte length of the JSON encoding exceeds 64, and on that failure it
never returns a button descriptor. -/
theorem c3_payload_too_large_iff (label : String) (v : JsonValue) :
    (InlineKeyboard.json label (.json v) =
        .error ⟨"Error", tooLargeMessage (JSONStringifyValue v)⟩
      ↔ 64 < (JSONStringifyValue v).utf8ByteSize) ∧
    (64 < (JSONStringifyValue v).utf8ByteSize →
      ∀ b, InlineKeyboard.json label (.json v) ≠ .ok b) := by
  refine ⟨⟨?_, ?_⟩, ?_⟩
  · intro h
    by_contra hle
    rw [json_ok_of_le label v (by omega)] at h
    simp at h
  · exact json_err_of_gt label v
  · intro hgt b hok
    rw [json_err_of_gt label v hgt] at hok
    simp at hok

theorem c3_payload_too_large_iff_witness :
    64 < (JSONStringifyValue (.str ⟨List.replicate 65 'a'⟩)).utf8ByteSize ∧
    InlineKeyboard.json "x" (.json (.str ⟨List.replicate 65 'a'⟩)) =
      .error ⟨"Error", tooLargeMessage (JSONStringifyValue (.str ⟨List.replicate 65 'a'⟩))⟩ ∧
    ∀ b, InlineKeyboard.json "x" (.json (.str ⟨List.replicate 65 'a'⟩)) ≠ .ok b :=
  ⟨by decide,
   (c3_payload_too_large_iff "x" _).1.mpr (by decide),
   (c3_payload_too_large_iff "x" _).2 (by decide)⟩

/-- C4: for every JSON value whose encoding fits in 64 UTF-8 bytes, the
static `InlineKeyboard.json` succeeds with the label passed verbatim and
the JSON encoding as callback data, and parsing that payload with
`JSON.parse` recovers the original value (round-trip). -/
theorem c4_roundtrip (label : String) (v : JsonValue)
    (h : (JSONStringifyValue v).utf8ByteSize ≤ 64) :
    InlineKeyboard.json label (.json v) = .ok ⟨label, JSONStringifyValue v⟩ ∧
    JSONParse (JSONStringifyValue v) = some v :=
  ⟨json_ok_of_le label v h, JSONParse_stringify v⟩

theorem c4_roundtrip_witness :
    (JSONStringifyValue (.objOf [("action", .str "like"), ("id", .num 42)])).utf8ByteSize ≤ 64 ∧
    InlineKeyboard.json "Like" (.json (.objOf [("action", .str "like"), ("id", .num 42)])) =
      .ok ⟨"Like", JSONStringifyValue (.objOf [("action", .str "like"), ("id", .num 42)])⟩ ∧
    JSONParse (JSONStringifyValue (.objOf [("action", .str "like"), ("id", .num 42)])) =
      some (.objOf [("action", .str "like"), ("id", .num 42)]) :=
  ⟨by decide,
   (c4_roundtrip "Like" _ (by decide)).1,
   (c4_roundtrip "Like" _ (by decide)).2⟩

/-- C5: when the raw callback payload is absent, not textual, or malformed
JSON, reading the installed accessor yields the absent value (`undefined`).
No error escapes to the caller: the getter body is total — its only
throwing operation, `JSON.parse`, sits inside the `try`/`catch` made
explicit in `jsonQueryGetter`, which normalizes the failure to absence. -/
theorem c5_absent_or_malformed (cd : Option CallbackData)
    (h : cd = none ∨ cd = some .nonText ∨
      ∃ s, cd = some (.text s) ∧ JSONParse s = none) :
    (readJsonQuery ⟨cd, some jsonQueryDescriptor⟩).1 = none := by
  rcases h with rfl | rfl | ⟨s, rfl, hs⟩
  · rfl
  · rfl
  · show (jsonQueryGetter ⟨some (.text s), some jsonQueryDescriptor⟩).1 = none
    simp [jsonQueryGetter, JSONParseThrow, hs]

theorem c5_absent_or_malformed_witness :
    (readJsonQuery ⟨some (.text "plain-text"), some jsonQueryDescriptor⟩).1 = none :=
  c5_absent_or_malformed _ (Or.inr (Or.inr ⟨"plain-text", rfl, rfl⟩))

/-- C6: the pipeline stage installs the accessor and then invokes the
continuation exactly once, unconditionally, returning the continuation's
result; on a context built by the framework from an update the
installation cannot fail, so the stage never fails the pipeline.  (The
model is a pure function, matching the synchronous body of the stage; the
exactly-once count is witnessed by threading a counter through the
continuation.) -/
theorem c6_next_exactly_once (cd : Option CallbackData) :
    (∀ (σ α : Type) (next : Context → σ → α × σ) (s : σ),
      jsonQueryMiddlewareStage (Context.ofUpdate cd) next s =
        .ok (next ⟨cd, some jsonQueryDescriptor⟩ s)) ∧
    jsonQueryMiddlewareStage (Context.ofUpdate cd) (fun _ n => ((), n + 1)) 0 =
      .ok ((), 1) :=
  ⟨fun _ _ _ _ => rfl, rfl⟩

/-- C7 (counterexample): the claim says that for every value outside the
JSON data model the failure is propagated from the serialization step and
never independently detected by the encoder.  For `undefined` (a value not
representable in JSON), `JSON.stringify` raises nothing — it returns the
undefined result — and it is the encoder's own `typeof` check
(src/mod.ts lines 39-44) that constructs and throws the `Error`. -/
theorem c7_counterexample :
    JSONStringify .undef = .ok none ∧
    InlineKeyboard.json "x" .undef =
      .error ⟨"Error", "Callback data could not be serialized to JSON"⟩ :=
  ⟨rfl, rfl⟩

/-- C7 (amended): for values on which `JSON.stringify` itself throws
(cyclic structures), the encoder propagates that very error unchanged;
for values that `JSON.stringify` serializes to the undefined result
(`undefined`, functions, symbols), the encoder detects the non-string
result itself and throws its own `Error`. -/
theorem c7_serialization_error_paths :
    JSONStringify .circular =
      .error ⟨"TypeError", "Converting circular structure to JSON"⟩ ∧
    (∀ label : String, InlineKeyboard.json label .circular =
      .error ⟨"TypeError", "Converting circular structure to JSON"⟩) ∧
    (∀ label : String, InlineKeyboard.json label .undef =
      .error ⟨"Error", "Callback data could not be serialized to JSON"⟩) :=
  ⟨rfl, fun _ => rfl, fun _ => rfl⟩

/-- C8: whenever the raw callback payload is a string that parses as JSON,
the accessor yields the parsed value — for every JSON shape, primitives
included (the witness instantiates the spec's `[1,2,3]` and `42`
examples). -/
theorem c8_parsed_value_exposed (s : String) (v : JsonValue)
    (h : JSONParse s = some v) :
    (readJsonQuery ⟨some (.text s), some jsonQueryDescriptor⟩).1 = some v := by
  show (jsonQueryGetter ⟨some (.text s), some jsonQueryDescriptor⟩).1 = some v
  simp [jsonQueryGetter, JSONParseThrow, h]

theorem c8_parsed_value_exposed_witness :
    (readJsonQuery ⟨some (.text "[1,2,3]"), some jsonQueryDescriptor⟩).1 =
      some (.arrOf [.num 1, .num 2, .num 3]) ∧
    (readJsonQuery ⟨some (.text "42"), some jsonQueryDescriptor⟩).1 = some (.num 42) :=
  ⟨c8_parsed_value_exposed "[1,2,3]" _ rfl, c8_parsed_value_exposed "42" _ rfl⟩

/-- C9 (counterexample): the claim says every descriptor produced by the
encoder has a non-empty label.  The encoder performs no label validation:
with the empty label (and the default `{}` payload) it succeeds and
returns a descriptor whose label is the empty string. -/
theorem c9_counterexample :
    InlineKeyboard.json "" = .ok ⟨"", "\x7b\x7d"⟩ ∧
    (CallbackButton.mk "" "\x7b\x7d").text = "" :=
  ⟨rfl, rfl⟩

/-- C9 (amended): the encoder passes the label through verbatim — whenever
it succeeds, the descriptor's label equals the given label, with no
non-emptiness (or any other) validation applied to it. -/
theorem c9_label_verbatim (label : String) (data : JsValue) (b : CallbackButton)
    (h : InlineKeyboard.json label data = .ok b) : b.text = label := by
  unfold InlineKeyboard.json at h
  cases hs : JSONStringify data with
  | error e => rw [hs] at h; simp at h
  | ok o =>
    cases o with
    | none => rw [hs] at h; simp at h
    | some enc =>
      rw [hs] at h
      simp only [] at h
      by_cases hb : enc.utf8ByteSize > 64
      · rw [if_pos hb] at h; simp at h
      · rw [if_neg hb] at h
        simp only [Except.ok.injEq] at h
        rw [← h]
        rfl

theorem c9_label_verbatim_witness :
    (CallbackButton.mk "x" "\x7b\x7d").text = "x" :=
  c9_label_verbatim "x" (.json (.obj .nil)) ⟨"x", "\x7b\x7d"⟩ rfl

/-- C10: running the stage a second time on the same event does not fail:
the property installed by the first run is `configurable: true`, so
`Object.defineProperty` re-installs it instead of throwing, and the second
run still forwards control to the continuation and returns its result. -/
theorem c10_rerun_succeeds (cd : Option CallbackData) {σ α : Type}
    (next : Context → σ → α × σ) (s : σ) :
    jsonQueryMiddlewareStage (Context.ofUpdate cd) (fun c t => (c, t)) s =
      .ok (⟨cd, some jsonQueryDescriptor⟩, s) ∧
    jsonQueryMiddlewareStage ⟨cd, some jsonQueryDescriptor⟩ next s =
      .ok (next ⟨cd, some jsonQueryDescriptor⟩ s) :=
  ⟨rfl, rfl⟩

end GrammyJsonQuery
